import Mathlib

/-!
Verification of the VideoUtils adaptive segmentation and size-targeting core.

Shallow embedding of the TypeScript sources:
  - src/tools/ffmpeg.ts           (parseTimeToSeconds)
  - src/tools/video-chunker.ts    (getVideoDuration, splitVideo)
  - src/tools/media-converter.ts  (getMediaDuration, getVideoInfo, calculateCompression)
and of the legacy worker variant of splitVideo (unnamed part_001).

JS numbers are modelled as rationals; JS strings as Lean strings
(lists of characters); the external transcoding engine as an oracle
supplying, per invocation, the diagnostic log lines and artifact sizes.
-/

namespace VideoUtils

/-! ## Diagnostic stream parser

Model of the regexes
  /(\d+):(\d+):(\d+)\.(\d+)/                (parseTimeToSeconds)
  /Duration:\s*(\d+):(\d+):(\d+)\.(\d+)/    (duration harvesting)
  /time=\s*(\d+:\d+:\d+\.\d+)/              (elapsed-time harvesting)
over lists of characters.  JS regex matching is leftmost-first; for these
patterns greedy digit/whitespace runs never backtrack (a shorter digit run
ends just before a digit, which can match neither the required separator
nor the end of the pattern), so maximal munch at each start position is
exact. -/

/-- Time token: the four captured digit groups H, M, S, cc as naturals. -/
structure TimeTok where
  hh : ℕ
  mm : ℕ
  ss : ℕ
  cc : ℕ
  deriving DecidableEq, Repr

/-- Decimal value of a digit run, as parseInt(_, 10) computes it. -/
def digitsVal (l : List Char) : ℕ :=
  l.foldl (fun a c => 10 * a + (c.toNat - '0'.toNat)) 0

/-- Match the pattern digits ':' digits ':' digits '.' digits at the head
of the input (the body of the parseTimeToSeconds regex). -/
def timeTokenAt (l : List Char) : Option TimeTok :=
  let p1 := l.span Char.isDigit
  if p1.1.isEmpty then none else
  match p1.2 with
  | ':' :: r2 =>
    let p2 := r2.span Char.isDigit
    if p2.1.isEmpty then none else
    match p2.2 with
    | ':' :: r4 =>
      let p3 := r4.span Char.isDigit
      if p3.1.isEmpty then none else
      match p3.2 with
      | '.' :: r6 =>
        let p4 := r6.span Char.isDigit
        if p4.1.isEmpty then none else
          some ⟨digitsVal p1.1, digitsVal p2.1, digitsVal p3.1, digitsVal p4.1⟩
      | _ => none
    | _ => none
  | _ => none

/-- Leftmost match of the time-token pattern: try each start position
from the left, as the JS regex engine does. -/
def findTimeToken : List Char → Option TimeTok
  | [] => none
  | c :: rest =>
    match timeTokenAt (c :: rest) with
    | some v => some v
    | none => findTimeToken rest

/-- Seconds value of a token: H*3600 + M*60 + S + cc/100
(ffmpeg.ts, parseTimeToSeconds return expression). -/
def tokSeconds (t : TimeTok) : ℚ :=
  (t.hh : ℚ) * 3600 + (t.mm : ℚ) * 60 + (t.ss : ℚ) + (t.cc : ℚ) / 100

/-- Embedding of parseTimeToSeconds (ffmpeg.ts lines 55-64): leftmost
match of the time pattern, value of its groups; 0 when no match. -/
def parseTimeToSeconds (s : String) : ℚ :=
  match findTimeToken s.data with
  | none => 0
  | some t => tokSeconds t

/-- JS \s whitespace class members relevant to engine log lines. -/
def jsWhitespace (c : Char) : Bool :=
  c = ' ' || c = '\t' || c = '\n' || c = '\r' || c = '\x0b' || c = '\x0c'

/-- Match literal tag, then \s*, then the time token, at the head of the
input. -/
def taggedTokenAt (tag : List Char) (l : List Char) : Option TimeTok :=
  if l.take tag.length = tag then
    timeTokenAt ((l.drop tag.length).dropWhile jsWhitespace)
  else none

/-- Leftmost match of tag \s* token over a whole line. -/
def taggedFind (tag : List Char) : List Char → Option TimeTok
  | [] => taggedTokenAt tag []
  | c :: rest =>
    match taggedTokenAt tag (c :: rest) with
    | some v => some v
    | none => taggedFind tag rest

/-- Match of /Duration:\s*(\d+):(\d+):(\d+)\.(\d+)/ on one log line.
The handlers keep match[0] and later re-parse it with parseTimeToSeconds,
which recovers exactly these groups, so we carry the token directly. -/
def durationMatch (l : List Char) : Option TimeTok :=
  taggedFind "Duration:".data l

/-- Match of /time=\s*(\d+:\d+:\d+\.\d+)/ on one log line.  match[1] is
the bare token, and parseTimeToSeconds applied to it yields its groups. -/
def timeMatch (l : List Char) : Option TimeTok :=
  taggedFind "time=".data l

/-- Duration harvesting across an invocation's log lines
(video-chunker.ts lines 20-26): the handler overwrites durationStr on
every matching line, so the fold keeps the latest match. -/
def harvestDuration (lines : List String) : Option TimeTok :=
  lines.foldl
    (fun acc l =>
      match durationMatch l.data with
      | some v => some v
      | none => acc)
    none

/-- Elapsed-time harvesting across an invocation's log lines
(video-chunker.ts lines 73-79): lastTime starts at 0 and is overwritten
with the parsed value of every time= match. -/
def harvestLastTime (lines : List String) : ℚ :=
  lines.foldl
    (fun acc l =>
      match timeMatch l.data with
      | some v => tokSeconds v
      | none => acc)
    0

/-- Probe failure taxonomy (spec section 7). -/
inductive ProbeErr where
  | missingDuration
  | missingResolution
  deriving DecidableEq, Repr

/-- Embedding of getVideoDuration (video-chunker.ts lines 19-37),
restricted to its observable function from the invocation's log lines to
its result: throw when no Duration line matched, else the parsed value. -/
def getVideoDurationM (lines : List String) : Except ProbeErr ℚ :=
  match harvestDuration lines with
  | none => .error .missingDuration
  | some v => .ok (tokSeconds v)

/-- Embedding of getMediaDuration (media-converter.ts lines 56-74): same
harvesting, but a missing Duration line yields 0 rather than an error
(source comment: progress will be indeterminate). -/
def getMediaDurationM (lines : List String) : Except ProbeErr ℚ :=
  match harvestDuration lines with
  | none => .ok 0
  | some v => .ok (tokSeconds v)

/-! ## Chunk planner (video-chunker.ts, splitVideo)

The external engine is abstracted as an oracle giving, for each loop
iteration, the diagnostic log lines emitted during the copy invocation,
the measured size of the artifact it produced, and the size the
re-encode invocation would produce as a function of the bitrate and
hard-cap arguments passed to it. -/

/-- Input parameters of splitVideo. -/
structure SplitParams where
  fileName : List Char
  fileSize : ℚ
  duration : ℚ
  maxChunkBytes : ℚ

/-- Engine responses for one loop iteration. -/
structure IterResp where
  logLines : List String
  copySize : ℚ
  reSize : ℤ → ℚ → ℚ

/-- One result segment (name and measured byte size). -/
structure Chunk where
  name : List Char
  size : ℚ
  deriving DecidableEq

/-- avgBitrate = fileSize / duration (video-chunker.ts line 48). -/
def avgBitrate (fileSize duration : ℚ) : ℚ := fileSize / duration

/-- estimatedChunkDuration of the current planner
(video-chunker.ts line 49): maxChunkBytes / avgBitrate, no margin. -/
def estimatedChunkDuration (fileSize duration maxChunkBytes : ℚ) : ℚ :=
  maxChunkBytes / avgBitrate fileSize duration

/-- estimatedTotalChunks of the current planner (video-chunker.ts
line 50). -/
def estimatedTotalChunks (fileSize duration maxChunkBytes : ℚ) : ℤ :=
  ⌈duration / estimatedChunkDuration fileSize duration maxChunkBytes⌉

/-- estimatedChunkDuration of the legacy worker variant (part_001 line
93): (maxChunkBytes * 0.95) / avgBitrate. -/
def legacyEstimatedChunkDuration (fileSize duration maxChunkBytes : ℚ) : ℚ :=
  maxChunkBytes * (19 / 20) / avgBitrate fileSize duration

/-- estimatedTotalChunks of the legacy worker variant (part_001 line
94). -/
def legacyEstimatedTotalChunks (fileSize duration maxChunkBytes : ℚ) : ℤ :=
  ⌈duration / legacyEstimatedChunkDuration fileSize duration maxChunkBytes⌉

/-- lastIndexOf('.') on a character list. -/
def lastIndexOfDot : List Char → Option ℕ
  | [] => none
  | c :: rest =>
    match lastIndexOfDot rest with
    | some i => some (i + 1)
    | none => if c = '.' then some 0 else none

/-- ext (video-chunker.ts line 52): substring from the last dot when the
name has one, else ".mp4".  fileName.includes('.') is equivalent to
lastIndexOfDot returning a value. -/
def extOf (fileName : List Char) : List Char :=
  match lastIndexOfDot fileName with
  | some i => fileName.drop i
  | none => ".mp4".data

/-- baseName (video-chunker.ts lines 53-55): substring up to the last
dot when the name has one, else the whole name. -/
def baseNameOf (fileName : List Char) : List Char :=
  match lastIndexOfDot fileName with
  | some i => fileName.take i
  | none => fileName

/-- String(chunkIndex).padStart(3, '0'). -/
def pad3 (n : ℕ) : List Char :=
  let s := Nat.toDigits 10 n
  List.replicate (3 - s.length) '0' ++ s

/-- chunkName (video-chunker.ts line 63). -/
def chunkNameOf (fileName : List Char) (idx : ℕ) : List Char :=
  baseNameOf fileName ++ "_part".data ++ pad3 idx ++ extOf fileName

/-- Per-iteration advance of currentTime (video-chunker.ts line 141):
lastTime when positive, else the estimate. -/
def chunkAdvance (p : SplitParams) (r : IterResp) : ℚ :=
  let lastTime := harvestLastTime r.logLines
  if lastTime > 0 then lastTime
  else estimatedChunkDuration p.fileSize p.duration p.maxChunkBytes

/-- The chunk pushed by one iteration (video-chunker.ts lines 103-133).
When the measured copy size exceeds maxChunkBytes the segment is redone
with targetBitrate = floor(maxChunkBytes * 0.95 * 8 / actualDuration)
and the -fs hard cap maxChunkBytes, and the re-encoded artifact is the
one recorded; otherwise the copy artifact is recorded as-is. -/
def chunkOf (p : SplitParams) (r : IterResp) (idx : ℕ) : Chunk :=
  let name := chunkNameOf p.fileName idx
  if r.copySize > p.maxChunkBytes then
    let lastTime := harvestLastTime r.logLines
    let actualDuration :=
      if lastTime > 0 then lastTime
      else estimatedChunkDuration p.fileSize p.duration p.maxChunkBytes
    let targetBitrate : ℤ := ⌊p.maxChunkBytes * (19 / 20) * 8 / actualDuration⌋
    { name := name, size := r.reSize targetBitrate p.maxChunkBytes }
  else
    { name := name, size := r.copySize }

/-- The while loop of splitVideo (video-chunker.ts lines 61-143), with
explicit fuel since the iteration count depends on engine behavior.
idx is the number of chunks already produced (chunkIndex before the
increment at line 62); t is currentTime. -/
def splitLoop (p : SplitParams) (o : ℕ → IterResp) : ℕ → ℚ → ℕ → List Chunk
  | 0, _, _ => []
  | fuel + 1, t, idx =>
    if t < p.duration - 1 / 10 then
      chunkOf p (o idx) (idx + 1) :: splitLoop p o fuel (t + chunkAdvance p (o idx)) (idx + 1)
    else []

/-- splitVideo's chunk list, starting from currentTime = 0, chunkIndex
= 0. -/
def splitVideo (p : SplitParams) (o : ℕ → IterResp) (fuel : ℕ) : List Chunk :=
  splitLoop p o fuel 0 0

/-- Value of currentTime after n loop iterations; frozen once the loop
guard currentTime < duration - 0.1 fails. -/
def currentTimeSeq (p : SplitParams) (o : ℕ → IterResp) : ℕ → ℚ
  | 0 => 0
  | n + 1 =>
    let t := currentTimeSeq p o n
    if t < p.duration - 1 / 10 then t + chunkAdvance p (o n) else t

/-! ## Compression planner (media-converter.ts, calculateCompression) -/

/-- Compression failure taxonomy. -/
inductive CompressErr where
  | targetTooSmall
  deriving DecidableEq, Repr

/-- One rung of the standard-resolution ladder. -/
structure StdRes where
  label : String
  height : ℕ
  deriving DecidableEq

/-- STANDARD_RESOLUTIONS (media-converter.ts lines 144-151). -/
def STANDARD_RESOLUTIONS : List StdRes :=
  [⟨"1080p", 1080⟩, ⟨"720p", 720⟩, ⟨"480p", 480⟩,
   ⟨"360p", 360⟩, ⟨"240p", 240⟩, ⟨"144p", 144⟩]

/-- MIN_BPP = 0.04 (media-converter.ts line 154). -/
def MIN_BPP : ℚ := 4 / 100

/-- Math.round on the positive values arising here: floor(x + 1/2). -/
def jsRound (x : ℚ) : ℤ := ⌊x + 1 / 2⌋

/-- Computed even aspect-preserving width for a ladder height
(media-converter.ts line 229): Math.round(h * aspect / 2) * 2. -/
def evenWidth (aspect : ℚ) (h : ℕ) : ℤ :=
  jsRound ((h : ℚ) * aspect / 2) * 2

/-- The for-loop over STANDARD_RESOLUTIONS (media-converter.ts lines
226-237): skip rungs at or above the source height, return the first
rung whose recomputed bpp reaches MIN_BPP, none when the loop finds
nothing. -/
def ladderPick (bestVideoBitrate aspect height : ℚ) : List StdRes → Option (ℤ × ℕ)
  | [] => none
  | r :: rest =>
    if (r.height : ℚ) ≥ height then ladderPick bestVideoBitrate aspect height rest
    else
      let w := evenWidth aspect r.height
      let bpp := bestVideoBitrate / ((w : ℚ) * (r.height : ℚ))
      if bpp ≥ MIN_BPP then some (w, r.height)
      else ladderPick bestVideoBitrate aspect height rest

/-- CompressionPlan (media-converter.ts lines 134-142). -/
structure CompressionPlan where
  videoBitrate : ℚ
  audioBitrate : ℚ
  newWidth : ℚ
  newHeight : ℚ
  minWidth : ℚ
  minHeight : ℚ
  minVideoBitrate : ℚ
  deriving DecidableEq

/-- Embedding of calculateCompression (media-converter.ts lines
197-259).  fileSize is a parameter of the source function but is never
read by its body. -/
def calculateCompression (fileSize duration width height targetBytes : ℚ) :
    Except CompressErr CompressionPlan :=
  let baseAudioBitrate : ℚ := 96000
  let totalTargetBits := targetBytes * 8
  let availableVideoBits := totalTargetBits - baseAudioBitrate * duration
  if availableVideoBits ≤ 0 then .error .targetTooSmall
  else
    let audioBitrate := baseAudioBitrate
    let aspect := width / height
    let bestVideoBitrate := availableVideoBits / duration
    let sourceBpp := bestVideoBitrate / (width * height)
    let best : ℚ × ℚ :=
      if sourceBpp < MIN_BPP then
        match ladderPick bestVideoBitrate aspect height STANDARD_RESOLUTIONS with
        | some (w, h) => ((w : ℚ), (h : ℚ))
        | none => (((evenWidth aspect 144 : ℤ) : ℚ), 144)
      else (width, height)
    let minHeight : ℚ := 144
    let minWidth : ℤ := jsRound (minHeight * aspect / 2) * 2
    let minVideoBitrate := availableVideoBits / duration
    .ok
      { videoBitrate := ((jsRound bestVideoBitrate : ℤ) : ℚ)
        audioBitrate := audioBitrate
        newWidth := best.1
        newHeight := best.2
        minWidth := ((minWidth : ℤ) : ℚ)
        minHeight := minHeight
        minVideoBitrate := ((jsRound minVideoBitrate : ℤ) : ℚ) }

/-! ## Subscriber discipline around one engine invocation

Model of getVideoDuration's registration bookkeeping (video-chunker.ts
lines 28-30): ffmpeg.on registers the handler, await ffmpeg.exec either
returns or throws, ffmpeg.off unregisters.  There is no try/finally, so
a throwing exec propagates out before the off line runs.  The same
on/exec/off shape, also without try/finally, appears around the
per-chunk time observer (lines 80-101), in getMediaDuration,
getVideoInfo, convertMedia and both compressVideo passes. -/

/-- Outcome of the engine invocation wrapped by the probe. -/
inductive ExecOutcome where
  | success (logLines : List String)
  | failure

/-- Result of the probe together with the number of still-registered log
subscribers when control leaves the function. -/
def getVideoDurationRun (outcome : ExecOutcome) :
    Except Unit (Except ProbeErr ℚ) × ℕ :=
  let registered : ℕ := 0
  let registered := registered + 1      -- ffmpeg.on('log', logHandler)
  match outcome with
  | .failure => (.error (), registered) -- await ffmpeg.exec throws; off never runs
  | .success lines =>
    let registered := registered - 1    -- ffmpeg.off('log', logHandler)
    (.ok (getVideoDurationM lines), registered)

/-! ## Spec-side reference definitions (for refinement statements) -/

/-- Reference description of the duration harvest: the value of the last
line carrying a Duration match (checked right to left). -/
def lastDurationMatch : List String → Option TimeTok
  | [] => none
  | l :: rest =>
    match lastDurationMatch rest with
    | some v => some v
    | none => durationMatch l.data

/-- Reference description of the ladder walk, following the spec's
words: restrict the ladder to rungs strictly below the source height,
take the first rung whose recomputed bpp reaches MIN_BPP, and fall back
to the 144p floor when none qualifies. -/
def specLadderSelect (bestVideoBitrate aspect height : ℚ) : ℚ × ℚ :=
  match (STANDARD_RESOLUTIONS.filter fun r => decide ((r.height : ℚ) < height)).find?
      (fun r => decide (bestVideoBitrate / ((evenWidth aspect r.height : ℚ) * (r.height : ℚ)) ≥ MIN_BPP)) with
  | some r => (((evenWidth aspect r.height : ℤ) : ℚ), ((r.height : ℕ) : ℚ))
  | none => (((evenWidth aspect 144 : ℤ) : ℚ), 144)

/-- Combined skip-and-accept test of one ladder rung, as the source loop
evaluates it. -/
def rungAccept (bestVideoBitrate aspect height : ℚ) (r : StdRes) : Bool :=
  !decide ((r.height : ℚ) ≥ height) &&
    decide (bestVideoBitrate / ((evenWidth aspect r.height : ℚ) * (r.height : ℚ)) ≥ MIN_BPP)

/-- Concrete split parameters used to instantiate universally quantified
results. -/
def wParams : SplitParams :=
  { fileName := "a.mp4".data, fileSize := 1, duration := 1, maxChunkBytes := 1 }

/-- Concrete engine oracle used to instantiate universally quantified
results: silent invocations producing empty artifacts. -/
def wOracle : ℕ → IterResp :=
  fun _ => { logLines := [], copySize := 0, reSize := fun _ _ => 0 }

/-! ## Parser lemmas -/

/-- timeTokenAt finds nothing in the empty input. -/
theorem timeTokenAt_nil : timeTokenAt [] = none := rfl

/-- If no start position of the input carries a time token, the leftmost
scan finds none. -/
theorem findTimeToken_of_none (l : List Char)
    (h : ∀ i, i < l.length → timeTokenAt (l.drop i) = none) :
    findTimeToken l = none := by
  induction l with
  | nil => rfl
  | cons c rest ih =>
    have h0 : timeTokenAt (c :: rest) = none := by simpa using h 0 (by simp)
    simp only [findTimeToken, h0]
    exact ih fun i hi => by simpa using h (i + 1) (by simpa using hi)

/-- If position i carries a time token and no earlier position does, the
leftmost scan returns the token at i. -/
theorem findTimeToken_of_first (l : List Char) (i : ℕ) (v : TimeTok)
    (hv : timeTokenAt (l.drop i) = some v)
    (hmin : ∀ j, j < i → timeTokenAt (l.drop j) = none) :
    findTimeToken l = some v := by
  induction l generalizing i with
  | nil =>
    rw [List.drop_nil, timeTokenAt_nil] at hv
    exact absurd hv (by simp)
  | cons c rest ih =>
    cases i with
    | zero =>
      rw [List.drop_zero] at hv
      simp only [findTimeToken, hv]
    | succ i =>
      have h0 : timeTokenAt (c :: rest) = none := by simpa using hmin 0 (Nat.succ_pos _)
      simp only [findTimeToken, h0]
      exact ih i (by simpa using hv) fun j hj => by simpa using hmin (j + 1) (Nat.succ_lt_succ hj)

/-- The seconds value of a token is a whole number of centiseconds. -/
theorem tokSeconds_eq_centi (t : TimeTok) :
    tokSeconds t = ((360000 * t.hh + 6000 * t.mm + 100 * t.ss + t.cc : ℕ) : ℚ) / 100 := by
  unfold tokSeconds
  push_cast
  ring

/-- A token's seconds value is zero or at least one centisecond. -/
theorem tokSeconds_granular (t : TimeTok) :
    tokSeconds t = 0 ∨ 1 / 100 ≤ tokSeconds t := by
  rw [tokSeconds_eq_centi]
  rcases Nat.eq_zero_or_pos (360000 * t.hh + 6000 * t.mm + 100 * t.ss + t.cc) with h | h
  · left; rw [h]; norm_num
  · right
    have h1 : (1 : ℚ) ≤ ((360000 * t.hh + 6000 * t.mm + 100 * t.ss + t.cc : ℕ) : ℚ) := by
      exact_mod_cast h
    linarith

/-- The harvested elapsed time is zero or at least one centisecond. -/
theorem harvestLastTime_granular (lines : List String) :
    harvestLastTime lines = 0 ∨ 1 / 100 ≤ harvestLastTime lines := by
  have key : ∀ (ls : List String) (acc : ℚ), (acc = 0 ∨ 1 / 100 ≤ acc) →
      (ls.foldl
        (fun acc l =>
          match timeMatch l.data with
          | some v => tokSeconds v
          | none => acc) acc = 0 ∨
       1 / 100 ≤ ls.foldl
        (fun acc l =>
          match timeMatch l.data with
          | some v => tokSeconds v
          | none => acc) acc) := by
    intro ls
    induction ls with
    | nil => intro acc hacc; simpa using hacc
    | cons l rest ih =>
      intro acc hacc
      simp only [List.foldl_cons]
      apply ih
      cases htm : timeMatch l.data with
      | none => simpa [htm] using hacc
      | some v => simpa [htm] using tokSeconds_granular v
  exact key lines 0 (Or.inl rfl)

/-- The duration harvest keeps the match of the last matching line. -/
theorem harvestDuration_eq_last (lines : List String) :
    harvestDuration lines = lastDurationMatch lines := by
  have key : ∀ (ls : List String) (acc : Option TimeTok),
      ls.foldl
        (fun acc l =>
          match durationMatch l.data with
          | some v => some v
          | none => acc) acc =
      match lastDurationMatch ls with
      | some v => some v
      | none => acc := by
    intro ls
    induction ls with
    | nil => intro acc; rfl
    | cons l rest ih =>
      intro acc
      simp only [List.foldl_cons, ih, lastDurationMatch]
      cases hrest : lastDurationMatch rest with
      | some v => rfl
      | none => cases hdm : durationMatch l.data <;> rfl
  exact (key lines none).trans (by cases lastDurationMatch lines <;> rfl)

/-- If no line of the invocation matches the Duration pattern, the
harvest is empty. -/
theorem harvestDuration_eq_none (lines : List String)
    (h : ∀ l ∈ lines, durationMatch l.data = none) :
    harvestDuration lines = none := by
  rw [harvestDuration_eq_last]
  induction lines with
  | nil => rfl
  | cons l rest ih =>
    simp only [lastDurationMatch, ih fun x hx => h x (List.mem_cons_of_mem _ hx),
      h l (List.mem_cons_self _ _)]

/-! ## Ladder lemmas -/

/-- The source's for-loop over the ladder is the first element accepted
by the combined skip-and-accept test, paired with its computed width. -/
theorem ladderPick_eq_find (b a h : ℚ) (l : List StdRes) :
    ladderPick b a h l =
      (l.find? (rungAccept b a h)).map fun r => (evenWidth a r.height, r.height) := by
  induction l with
  | nil => rfl
  | cons r rest ih =>
    by_cases hskip : (r.height : ℚ) ≥ h
    · rw [ladderPick, if_pos hskip, ih, List.find?_cons_of_neg]
      simp [rungAccept, hskip]
    · by_cases hbpp : b / ((evenWidth a r.height : ℚ) * (r.height : ℚ)) ≥ MIN_BPP
      · rw [ladderPick, if_neg hskip]
        simp only [if_pos hbpp]
        rw [List.find?_cons_of_pos]
        · rfl
        · simp [rungAccept, hskip, hbpp]
      · rw [ladderPick, if_neg hskip]
        simp only [if_neg hbpp]
        rw [ih, List.find?_cons_of_neg]
        simp [rungAccept, hbpp]

/-- In a strictly height-descending list, the first element accepted by a
test is the tallest accepted element. -/
theorem find?_sorted_tallest {q : StdRes → Bool} (l : List StdRes)
    (hp : l.Pairwise fun x y => y.height < x.height) (r : StdRes)
    (hr : l.find? q = some r) :
    ∀ r' ∈ l, q r' = true → r'.height ≤ r.height := by
  induction l with
  | nil => simp at hr
  | cons x rest ih =>
    rw [List.pairwise_cons] at hp
    intro r' hr' hq
    by_cases hqx : q x
    · rw [List.find?_cons_of_pos _ hqx] at hr
      have hxr : x = r := by injection hr
      rcases List.mem_cons.mp hr' with rfl | hmem
      · exact le_of_eq (congrArg StdRes.height hxr)
      · exact le_of_lt (hxr ▸ hp.1 r' hmem)
    · rw [List.find?_cons_of_neg _ hqx] at hr
      rcases List.mem_cons.mp hr' with rfl | hmem
      · exact absurd hq hqx
      · exact ih hp.2 hr r' hmem hq

/-- The spec-side ladder selection agrees with the first element of the
full ladder accepted by the combined test. -/
theorem specLadderSelect_eq_find (b a h : ℚ) :
    specLadderSelect b a h =
      match STANDARD_RESOLUTIONS.find? (rungAccept b a h) with
      | some r => (((evenWidth a r.height : ℤ) : ℚ), ((r.height : ℕ) : ℚ))
      | none => (((evenWidth a 144 : ℤ) : ℚ), 144) := by
  have hpred : (fun r : StdRes =>
      decide (decide ((r.height : ℚ) < h) = true ∧
        decide (b / ((evenWidth a r.height : ℚ) * (r.height : ℚ)) ≥ MIN_BPP) = true))
      = rungAccept b a h := by
    funext r
    by_cases h1 : (r.height : ℚ) < h
    · simp [rungAccept, h1, not_le.mpr h1]
    · simp [rungAccept, h1, not_lt.mp h1]
  unfold specLadderSelect
  simp only [List.find?_filter]
  rw [hpred]

/-! ## Chunk loop lemmas -/

/-- The i-th chunk the loop produces is built by chunkOf from the
engine's i-th iteration responses, carrying the 1-based index. -/
theorem splitLoop_get (p : SplitParams) (o : ℕ → IterResp) :
    ∀ (fuel : ℕ) (t : ℚ) (idx i : ℕ) (h : i < (splitLoop p o fuel t idx).length),
      (splitLoop p o fuel t idx).get ⟨i, h⟩ = chunkOf p (o (idx + i)) (idx + i + 1) := by
  intro fuel
  induction fuel with
  | zero =>
    intro t idx i h
    simp [splitLoop] at h
  | succ fuel ih =>
    intro t idx i h
    by_cases hg : t < p.duration - 1 / 10
    · have hcons : splitLoop p o (fuel + 1) t idx =
          chunkOf p (o idx) (idx + 1) :: splitLoop p o fuel (t + chunkAdvance p (o idx)) (idx + 1) := by
        rw [splitLoop, if_pos hg]
      cases i with
      | zero =>
        rw [List.get_of_eq hcons]
        rfl
      | succ i =>
        have hlen : i < (splitLoop p o fuel (t + chunkAdvance p (o idx)) (idx + 1)).length := by
          have hh := h
          rw [hcons] at hh
          simpa using hh
        have hstep : (splitLoop p o (fuel + 1) t idx).get ⟨i + 1, h⟩ =
            (splitLoop p o fuel (t + chunkAdvance p (o idx)) (idx + 1)).get ⟨i, hlen⟩ := by
          rw [List.get_of_eq hcons]
          exact List.get_cons_succ
        rw [hstep, ih _ (idx + 1) i hlen]
        have e : idx + 1 + i = idx + (i + 1) := by omega
        rw [e]
    · exfalso
      rw [splitLoop, if_neg hg] at h
      simp at h

/-- fileName.includes('.') agrees with lastIndexOfDot finding an
index. -/
theorem contains_dot_iff (f : List Char) :
    f.contains '.' = (lastIndexOfDot f).isSome := by
  induction f with
  | nil => rfl
  | cons c rest ih =>
    simp only [lastIndexOfDot]
    cases hrest : lastIndexOfDot rest with
    | some i => rw [List.contains_cons, ih, hrest]; simp
    | none =>
      rw [List.contains_cons, ih, hrest]
      by_cases hc : c = '.'
      · subst hc; simp
      · simp [hc, Ne.symm hc]

/-! ## Claim theorems -/

/-- C1: for positive fileSize, duration and maxChunkBytes the chunk loop
terminates after finitely many iterations whatever diagnostic lines the
engine emits, and currentTime strictly increases on every iteration the
guard admits: every advance is either a harvested time= value — which,
being H*3600 + M*60 + S + cc/100 and positive, is at least one
centisecond — or the positive estimated chunk duration. -/
theorem splitVideo_loop_terminates_and_increasing
    (p : SplitParams) (o : ℕ → IterResp)
    (hfs : 0 < p.fileSize) (hd : 0 < p.duration) (hmc : 0 < p.maxChunkBytes) :
    (∃ n, ¬ currentTimeSeq p o n < p.duration - 1 / 10)
    ∧ ∀ n, currentTimeSeq p o n < p.duration - 1 / 10 →
        currentTimeSeq p o n < currentTimeSeq p o (n + 1) := by
  have hest : 0 < estimatedChunkDuration p.fileSize p.duration p.maxChunkBytes := by
    unfold estimatedChunkDuration avgBitrate
    exact div_pos hmc (div_pos hfs hd)
  set m := min (1 / 100 : ℚ) (estimatedChunkDuration p.fileSize p.duration p.maxChunkBytes)
    with hm
  have hm0 : 0 < m := lt_min (by norm_num) hest
  have hadv : ∀ n, m ≤ chunkAdvance p (o n) := by
    intro n
    unfold chunkAdvance
    rcases harvestLastTime_granular (o n).logLines with h0 | h1
    · rw [h0, if_neg (lt_irrefl 0)]
      exact min_le_right _ _
    · by_cases hpos : harvestLastTime (o n).logLines > 0
      · rw [if_pos hpos]
        exact le_trans (min_le_left _ _) h1
      · rw [if_neg hpos]
        exact min_le_right _ _
  have hstep : ∀ n, currentTimeSeq p o n < p.duration - 1 / 10 →
      currentTimeSeq p o (n + 1) = currentTimeSeq p o n + chunkAdvance p (o n) := by
    intro n hn
    simp only [currentTimeSeq]
    rw [if_pos hn]
  constructor
  · by_contra hall
    push_neg at hall
    have hlow : ∀ n : ℕ, (n : ℚ) * m ≤ currentTimeSeq p o n := by
      intro n
      induction n with
      | zero => simp [currentTimeSeq]
      | succ k ihk =>
        rw [hstep k (hall k)]
        push_cast
        have := hadv k
        linarith
    obtain ⟨n, hn⟩ := exists_nat_gt ((p.duration - 1 / 10) / m)
    rw [div_lt_iff₀ hm0] at hn
    have h1 := hlow n
    have h2 := hall n
    linarith
  · intro n hn
    rw [hstep n hn]
    have := hadv n
    linarith

/-- C1 witness: instantiation at unit parameters and a silent engine. -/
theorem splitVideo_loop_terminates_and_increasing_witness :
    (0 : ℚ) < wParams.fileSize ∧ (0 : ℚ) < wParams.duration ∧ (0 : ℚ) < wParams.maxChunkBytes
    ∧ ((∃ n, ¬ currentTimeSeq wParams wOracle n < wParams.duration - 1 / 10)
        ∧ ∀ n, currentTimeSeq wParams wOracle n < wParams.duration - 1 / 10 →
            currentTimeSeq wParams wOracle n < currentTimeSeq wParams wOracle (n + 1)) := by
  refine ⟨?_, ?_, ?_,
    splitVideo_loop_terminates_and_increasing wParams wOracle ?_ ?_ ?_⟩ <;>
    norm_num [wParams]

/-- C2: whenever the measured size of the i-th copied segment exceeds
maxChunkBytes, the recorded chunk is the re-encode invoked with
targetBitrate = floor(maxChunkBytes * 0.95 * 8 / actualDuration) and the
same -fs hard cap maxChunkBytes, replacing the copy result; a segment
whose measured size is within maxChunkBytes is recorded as-is. -/
theorem splitVideo_cap_violation_fallback
    (p : SplitParams) (o : ℕ → IterResp) (fuel i : ℕ)
    (h : i < (splitVideo p o fuel).length) :
    ((o i).copySize > p.maxChunkBytes →
      (splitVideo p o fuel).get ⟨i, h⟩ =
        { name := chunkNameOf p.fileName (i + 1)
          size := (o i).reSize
            ⌊p.maxChunkBytes * (19 / 20) * 8 /
              (if harvestLastTime (o i).logLines > 0 then harvestLastTime (o i).logLines
               else estimatedChunkDuration p.fileSize p.duration p.maxChunkBytes)⌋
            p.maxChunkBytes })
    ∧ (¬ (o i).copySize > p.maxChunkBytes →
      (splitVideo p o fuel).get ⟨i, h⟩ =
        { name := chunkNameOf p.fileName (i + 1), size := (o i).copySize }) := by
  have hget : (splitVideo p o fuel).get ⟨i, h⟩ = chunkOf p (o (0 + i)) (0 + i + 1) :=
    splitLoop_get p o fuel 0 0 i h
  rw [Nat.zero_add] at hget
  constructor
  · intro hc
    rw [hget]
    unfold chunkOf
    rw [if_pos hc]
  · intro hc
    rw [hget]
    unfold chunkOf
    rw [if_neg hc]

/-- C2 witness: with a silent engine whose copy artifact is within the
cap, the first chunk is the copy result kept as-is. -/
theorem splitVideo_cap_violation_fallback_witness :
    ∃ h : 0 < (splitVideo wParams wOracle 1).length,
      (splitVideo wParams wOracle 1).get ⟨0, h⟩ =
        { name := chunkNameOf wParams.fileName 1, size := (wOracle 0).copySize } := by
  have hsv : splitVideo wParams wOracle 1 =
      [chunkOf wParams (wOracle 0) 1] := by
    rw [splitVideo, splitLoop, if_pos, splitLoop]
    show (0 : ℚ) < wParams.duration - 1 / 10
    norm_num [wParams]
  have hlen : 0 < (splitVideo wParams wOracle 1).length := by
    rw [hsv]
    norm_num
  exact ⟨hlen, (splitVideo_cap_violation_fallback wParams wOracle 1 0 hlen).2
    (by norm_num [wParams, wOracle])⟩

/-- C10: every chunk in the returned list is named
base_partNNN followed by the extension, where NNN is the 1-based list
position zero-padded to three digits; for a dotted source name the base
and extension partition the name at its last dot, and a dotless name
keeps its full base with extension ".mp4". -/
theorem chunk_naming :
    (∀ (p : SplitParams) (o : ℕ → IterResp) (fuel i : ℕ)
        (h : i < (splitVideo p o fuel).length),
        ((splitVideo p o fuel).get ⟨i, h⟩).name = chunkNameOf p.fileName (i + 1))
    ∧ (∀ f : List Char, f.contains '.' = true → baseNameOf f ++ extOf f = f)
    ∧ (∀ f : List Char, f.contains '.' = false →
        baseNameOf f = f ∧ extOf f = ".mp4".data)
    ∧ pad3 1 = "001".data ∧ pad3 12 = "012".data ∧ pad3 123 = "123".data := by
  refine ⟨?_, ?_, ?_, by decide, by decide, by decide⟩
  · intro p o fuel i h
    have hget : (splitVideo p o fuel).get ⟨i, h⟩ = chunkOf p (o (0 + i)) (0 + i + 1) :=
      splitLoop_get p o fuel 0 0 i h
    rw [Nat.zero_add] at hget
    rw [hget]
    unfold chunkOf
    by_cases hc : (o i).copySize > p.maxChunkBytes
    · rw [if_pos hc]
    · rw [if_neg hc]
  · intro f hf
    rw [contains_dot_iff] at hf
    obtain ⟨i, hi⟩ := Option.isSome_iff_exists.mp hf
    rw [baseNameOf, extOf, hi]
    exact List.take_append_drop i f
  · intro f hf
    rw [contains_dot_iff] at hf
    have hnone : lastIndexOfDot f = none := by
      cases hl : lastIndexOfDot f with
      | none => rfl
      | some i => rw [hl] at hf; simp at hf
    constructor
    · rw [baseNameOf, hnone]
    · rw [extOf, hnone]

/-- C10 witness: the first chunk of a source named a.mp4 is named
a_part001.mp4. -/
theorem chunk_naming_witness :
    ∃ h : 0 < (splitVideo wParams wOracle 1).length,
      ((splitVideo wParams wOracle 1).get ⟨0, h⟩).name = chunkNameOf wParams.fileName 1
      ∧ baseNameOf "a.mp4".data ++ extOf "a.mp4".data = "a.mp4".data
      ∧ chunkNameOf "a.mp4".data 1 = "a_part001.mp4".data := by
  have hsv : splitVideo wParams wOracle 1 =
      [chunkOf wParams (wOracle 0) 1] := by
    rw [splitVideo, splitLoop, if_pos, splitLoop]
    show (0 : ℚ) < wParams.duration - 1 / 10
    norm_num [wParams]
  have hlen : 0 < (splitVideo wParams wOracle 1).length := by
    rw [hsv]
    norm_num
  exact ⟨hlen, chunk_naming.1 wParams wOracle 1 0 hlen,
    chunk_naming.2.1 "a.mp4".data (by decide), by decide⟩

example : durationMatch "  Duration: 00:10:00.00, start: 0.0".data = some ⟨0, 10, 0, 0⟩ := by
  decide

example : timeMatch "frame= 24 fps= 0 q=-1.0 size= 256KiB time=00:00:01.50".data
    = some ⟨0, 0, 1, 50⟩ := by
  decide

/-- C9: parseTimeToSeconds is total; an input with no digits:digits:
digits.digits token at any start position yields 0, an input whose first
such token sits at position i yields H*3600 + M*60 + S + cc/100 computed
from that token, and parseTimeToSeconds "01:02:03.45" = 3723.45. -/
theorem parseTime_total_first_token :
    (∀ s : String, (∀ i, i < s.data.length → timeTokenAt (s.data.drop i) = none) →
      parseTimeToSeconds s = 0)
    ∧ (∀ (s : String) (i : ℕ) (v : TimeTok),
        timeTokenAt (s.data.drop i) = some v →
        (∀ j, j < i → timeTokenAt (s.data.drop j) = none) →
        parseTimeToSeconds s = tokSeconds v)
    ∧ parseTimeToSeconds "01:02:03.45" = 372345 / 100 := by
  refine ⟨?_, ?_, ?_⟩
  · intro s h
    unfold parseTimeToSeconds
    rw [findTimeToken_of_none s.data h]
  · intro s i v hv hmin
    unfold parseTimeToSeconds
    rw [findTimeToken_of_first s.data i v hv hmin]
  · have h : findTimeToken "01:02:03.45".data = some ⟨1, 2, 3, 45⟩ := by decide
    unfold parseTimeToSeconds
    rw [h]
    unfold tokSeconds
    norm_num

/-- C9 witness: a tokenless input evaluates to 0 and the canonical input
evaluates to 3723.45. -/
theorem parseTime_total_first_token_witness :
    parseTimeToSeconds "ab" = 0 ∧ parseTimeToSeconds "01:02:03.45" = 372345 / 100 :=
  ⟨parseTime_total_first_token.1 "ab" (by decide), parseTime_total_first_token.2.2⟩

/-- C4 counterexample: getMediaDuration is also a duration probe over the
same Duration grammar, yet on a line sequence with no Duration match it
returns 0 instead of failing. -/
theorem duration_probe_missing_cex :
    durationMatch "no duration fact here".data = none
    ∧ getMediaDurationM ["no duration fact here"] = .ok 0 := by
  constructor
  · decide
  · have h : harvestDuration ["no duration fact here"] = none := by decide
    simp [getMediaDurationM, h]

/-- C4 amended: on a diagnostic line sequence with no Duration match,
getVideoDuration (the chunker's probe) fails with MissingDuration and
never returns a number, while getMediaDuration (the converter's probe)
deliberately returns 0. -/
theorem duration_probe_missing (lines : List String)
    (h : ∀ l ∈ lines, durationMatch l.data = none) :
    getVideoDurationM lines = .error .missingDuration
    ∧ getMediaDurationM lines = .ok 0 := by
  have hn := harvestDuration_eq_none lines h
  constructor
  · simp [getVideoDurationM, hn]
  · simp [getMediaDurationM, hn]

/-- C4 witness: instantiation on a concrete tokenless line list. -/
theorem duration_probe_missing_witness :
    getVideoDurationM ["x"] = .error .missingDuration
    ∧ getMediaDurationM ["x"] = .ok 0 :=
  duration_probe_missing ["x"] (by decide)

/-- C8 counterexample: two lines both match the Duration grammar; the
first parses to 1 s, the second to 2 s, and the harvested duration is
2 s — the last matching line wins, not the first. -/
theorem duration_first_occurrence_cex :
    durationMatch "Duration: 00:00:01.00, start".data = some ⟨0, 0, 1, 0⟩
    ∧ durationMatch "Duration: 00:00:02.00, start".data = some ⟨0, 0, 2, 0⟩
    ∧ tokSeconds ⟨0, 0, 1, 0⟩ = 1
    ∧ getVideoDurationM ["Duration: 00:00:01.00, start", "Duration: 00:00:02.00, start"] = .ok 2
    ∧ (2 : ℚ) ≠ 1 := by
  refine ⟨by decide, by decide, ?_, ?_, by norm_num⟩
  · unfold tokSeconds
    norm_num
  · have h : harvestDuration ["Duration: 00:00:01.00, start", "Duration: 00:00:02.00, start"]
        = some ⟨0, 0, 2, 0⟩ := by decide
    simp only [getVideoDurationM, h]
    unfold tokSeconds
    norm_num

/-- C8 amended: for the Duration fact the last matching line wins — the
harvested duration is the one parsed from the final line carrying a
Duration match (the leftmost match within that line). -/
theorem duration_last_occurrence_wins (lines : List String) (v : TimeTok)
    (h : lastDurationMatch lines = some v) :
    getVideoDurationM lines = .ok (tokSeconds v) := by
  simp [getVideoDurationM, harvestDuration_eq_last, h]

/-- C8 amended witness: instantiation on the two-line counterexample
sequence. -/
theorem duration_last_occurrence_wins_witness :
    getVideoDurationM ["Duration: 00:00:01.00, start", "Duration: 00:00:02.00, start"]
      = .ok (tokSeconds ⟨0, 0, 2, 0⟩) :=
  duration_last_occurrence_wins _ ⟨0, 0, 2, 0⟩ (by decide)

/-- C5: after a failed engine invocation the probe's log subscriber is
still registered (the off call is skipped when exec throws), while a
successful invocation leaves no subscriber behind.  The claim demands
zero registered subscribers on every exit path. -/
theorem probe_subscriber_leak_on_failure :
    (getVideoDurationRun .failure).2 = 1
    ∧ ∀ lines, (getVideoDurationRun (.success lines)).2 = 0 :=
  ⟨rfl, fun _ => rfl⟩

/-- C7: calculateCompression fails with TargetTooSmall exactly when
targetBytes*8 <= 96000*duration, and returns a plan otherwise. -/
theorem compression_target_too_small_iff (fileSize duration width height targetBytes : ℚ) :
    (calculateCompression fileSize duration width height targetBytes = .error .targetTooSmall
      ↔ targetBytes * 8 ≤ 96000 * duration)
    ∧ (96000 * duration < targetBytes * 8 →
        ∃ plan, calculateCompression fileSize duration width height targetBytes = .ok plan) := by
  have hiff : calculateCompression fileSize duration width height targetBytes
      = .error .targetTooSmall ↔ targetBytes * 8 ≤ 96000 * duration := by
    constructor
    · intro he
      by_contra hlt
      push_neg at hlt
      have hc : ¬ (targetBytes * 8 - 96000 * duration ≤ 0) := by linarith
      simp only [calculateCompression, if_neg hc] at he
      exact Except.noConfusion he
    · intro hle
      have hc : targetBytes * 8 - 96000 * duration ≤ 0 := by linarith
      simp only [calculateCompression, if_pos hc]
  refine ⟨hiff, ?_⟩
  intro hlt
  cases hres : calculateCompression fileSize duration width height targetBytes with
  | error e =>
    cases e
    exact absurd (hiff.mp hres) (by linarith)
  | ok plan => exact ⟨plan, rfl⟩

/-- C7 witness: a target big enough for the audio reserve yields a plan;
a target of 0 bytes fails. -/
theorem compression_target_too_small_iff_witness :
    (∃ plan, calculateCompression 100000000 120 1920 1080 25000000 = .ok plan)
    ∧ (calculateCompression 100000000 120 1920 1080 0 = .error .targetTooSmall
        ↔ (0 : ℚ) * 8 ≤ 96000 * 120) :=
  ⟨(compression_target_too_small_iff 100000000 120 1920 1080 25000000).2 (by norm_num),
   (compression_target_too_small_iff 100000000 120 1920 1080 0).1⟩

/-- C6: when the source bits-per-pixel is below MIN_BPP,
calculateCompression resolves the output resolution by the spec's ladder
rule — restrict the descending strictly-sorted ladder 1080..144 to rungs
below the source height, compute each rung's aspect-preserving even
width, accept the first rung whose recomputed bpp reaches MIN_BPP, and
fall back to the 144p floor when none qualifies — and the chosen height
is the tallest qualifying rung. -/
theorem compression_ladder_selection
    (fileSize duration width height targetBytes : ℚ)
    (hquota : 96000 * duration < targetBytes * 8)
    (hbpp : (targetBytes * 8 - 96000 * duration) / duration / (width * height) < MIN_BPP) :
    ∃ plan, calculateCompression fileSize duration width height targetBytes = .ok plan
      ∧ (plan.newWidth, plan.newHeight) =
          specLadderSelect ((targetBytes * 8 - 96000 * duration) / duration) (width / height) height
      ∧ STANDARD_RESOLUTIONS.Pairwise (fun x y => y.height < x.height)
      ∧ ∀ r ∈ STANDARD_RESOLUTIONS, (r.height : ℚ) < height →
          MIN_BPP ≤ ((targetBytes * 8 - 96000 * duration) / duration) /
              ((evenWidth (width / height) r.height : ℚ) * (r.height : ℚ)) →
          (r.height : ℚ) ≤ plan.newHeight := by
  have hc : ¬ (targetBytes * 8 - 96000 * duration ≤ 0) := by linarith
  have hsorted : STANDARD_RESOLUTIONS.Pairwise fun x y => y.height < x.height := by decide
  cases hres : calculateCompression fileSize duration width height targetBytes with
  | error e =>
    exfalso
    simp only [calculateCompression, if_neg hc] at hres
    exact Except.noConfusion hres
  | ok plan =>
    simp only [calculateCompression, if_neg hc, if_pos hbpp, Except.ok.injEq] at hres
    rw [ladderPick_eq_find] at hres
    cases hfind : STANDARD_RESOLUTIONS.find?
        (rungAccept ((targetBytes * 8 - 96000 * duration) / duration) (width / height) height) with
    | none =>
      rw [hfind] at hres
      simp only [Option.map_none'] at hres
      refine ⟨plan, rfl, ?_, hsorted, ?_⟩
      · rw [← hres]
        simp [specLadderSelect_eq_find, hfind]
      · intro r hr hlow hhigh
        have hq : rungAccept ((targetBytes * 8 - 96000 * duration) / duration)
            (width / height) height r = true := by
          simp [rungAccept, not_le.mpr hlow, hhigh]
        exact absurd hq (by simpa using List.find?_eq_none.mp hfind r hr)
    | some r' =>
      rw [hfind] at hres
      simp only [Option.map_some'] at hres
      refine ⟨plan, rfl, ?_, hsorted, ?_⟩
      · rw [← hres]
        simp [specLadderSelect_eq_find, hfind]
      · intro r hr hlow hhigh
        have hq : rungAccept ((targetBytes * 8 - 96000 * duration) / duration)
            (width / height) height r = true := by
          simp [rungAccept, not_le.mpr hlow, hhigh]
        have hle := find?_sorted_tallest STANDARD_RESOLUTIONS hsorted r' hfind r hr hq
        rw [← hres]
        simpa using Nat.cast_le.mpr hle

/-- C6 witness: a 1920x1080 source at 100 s squeezed to 2 MB has source
bpp below 0.04, and the selection theorem applies. -/
theorem compression_ladder_selection_witness :
    ∃ plan, calculateCompression 0 100 1920 1080 2000000 = .ok plan
      ∧ (plan.newWidth, plan.newHeight) =
          specLadderSelect ((2000000 * 8 - 96000 * 100) / 100) (1920 / 1080) 1080
      ∧ STANDARD_RESOLUTIONS.Pairwise (fun x y => y.height < x.height)
      ∧ ∀ r ∈ STANDARD_RESOLUTIONS, (r.height : ℚ) < 1080 →
          MIN_BPP ≤ ((2000000 * 8 - 96000 * 100) / 100) /
              ((evenWidth (1920 / 1080) r.height : ℚ) * (r.height : ℚ)) →
          (r.height : ℚ) ≤ plan.newHeight :=
  compression_ladder_selection 0 100 1920 1080 2000000 (by norm_num)
    (by rw [MIN_BPP]; norm_num)

/-- C3 counterexample: on the chunk planner of video-chunker.ts the
first-iteration estimate for fileSize 10^9, duration 600 s, cap
209715200 bytes is 125.82912 s — not (maxChunkBytes*0.95)/avgBitrate ≈
119.6 s — and the estimated chunk total is 5, not 6. -/
theorem chunk_estimate_cex :
    estimatedChunkDuration 1000000000 600 209715200 = 12582912 / 100000
    ∧ estimatedChunkDuration 1000000000 600 209715200
        ≠ legacyEstimatedChunkDuration 1000000000 600 209715200
    ∧ estimatedTotalChunks 1000000000 600 209715200 = 5
    ∧ (5 : ℤ) ≠ 6 := by
  refine ⟨?_, ?_, ?_, by norm_num⟩
  · unfold estimatedChunkDuration avgBitrate
    norm_num
  · unfold estimatedChunkDuration legacyEstimatedChunkDuration avgBitrate
    norm_num
  · unfold estimatedTotalChunks estimatedChunkDuration avgBitrate
    rw [Int.ceil_eq_iff]
    norm_num

/-- C3 amended: for fileSize 10^9, duration 600 s, cap 209715200 bytes,
the legacy worker planner (part_001) matches the claimed numbers —
avgBitrate ≈ 1,666,667 bytes/s, estimate (maxChunkBytes*0.95)/avgBitrate
≈ 119.6 s (exactly 119.537664 s), 6 estimated chunks — while the current
video-chunker.ts planner omits the 0.95 margin, giving 125.82912 s and 5
chunks. -/
theorem chunk_estimate_variants :
    (1666666 ≤ avgBitrate 1000000000 600 ∧ avgBitrate 1000000000 600 ≤ 1666667)
    ∧ legacyEstimatedChunkDuration 1000000000 600 209715200 = 119537664 / 1000000
    ∧ (1195 / 10 < legacyEstimatedChunkDuration 1000000000 600 209715200
        ∧ legacyEstimatedChunkDuration 1000000000 600 209715200 < 1196 / 10)
    ∧ legacyEstimatedTotalChunks 1000000000 600 209715200 = 6
    ∧ estimatedChunkDuration 1000000000 600 209715200 = 12582912 / 100000
    ∧ estimatedTotalChunks 1000000000 600 209715200 = 5 := by
  refine ⟨⟨?_, ?_⟩, ?_, ⟨?_, ?_⟩, ?_, ?_, ?_⟩
  · unfold avgBitrate; norm_num
  · unfold avgBitrate; norm_num
  · unfold legacyEstimatedChunkDuration avgBitrate; norm_num
  · unfold legacyEstimatedChunkDuration avgBitrate; norm_num
  · unfold legacyEstimatedChunkDuration avgBitrate; norm_num
  · unfold legacyEstimatedTotalChunks legacyEstimatedChunkDuration avgBitrate
    rw [Int.ceil_eq_iff]
    norm_num
  · unfold estimatedChunkDuration avgBitrate; norm_num
  · unfold estimatedTotalChunks estimatedChunkDuration avgBitrate
    rw [Int.ceil_eq_iff]
    norm_num

end VideoUtils
